import Mathlib

/-!
# ofXml: handles, attributes, text content, ranges and iterators

A shallow embedding of `libs/openFrameworks/utils/ofXml.h`.

The document engine keeps its nodes in memory and hands out pointers to them.
Here that memory is a `Store`: a list of node records, a pointer is the index
of a record, and the null pointer is `none`.  A node record holds its kind,
name, value, parent pointer, ordered attribute list and ordered list of child
pointers.  Every operation that writes to a document takes the store and
returns the new store.

Text handed to the engine is a `String`; the parameter `toStr` of the setters
stands for `ofToString(value).c_str()`.
-/

namespace pugi

/-- Modelled from the spec: the node kinds of the engine (`pugixml.hpp` is not part of
the sources). -/
inductive xml_node_type where
  | node_null
  | node_document
  | node_element
  | node_pcdata
  | node_cdata
  | node_comment
  | node_pi
  | node_declaration
  | node_doctype
  deriving DecidableEq, Repr

/-- Modelled from the spec: one attribute slot of the engine, a name and a value. -/
structure xml_attribute_struct where
  name : String
  value : String
  deriving DecidableEq, Repr

/-- Modelled from the spec: one node record of the engine's mutable tree: kind, name,
value, parent, ordered attribute storage and ordered children. -/
structure xml_node_struct where
  type : xml_node_type
  name : String
  value : String
  parent : Option Nat
  attributes : List xml_attribute_struct
  children : List Nat
  deriving DecidableEq, Repr

end pugi

open pugi pugi.xml_node_type

/-- The memory of the engine: node records addressed by their index. -/
abbrev Store := List xml_node_struct

/-- A node position, `pugi::xml_node`: a pointer to a node record, or null. -/
abbrev xml_node := Option Nat

/-- An attribute position, `pugi::xml_attribute`: the owning node record and the
ordinal of the slot in its attribute list, or null. -/
abbrev xml_attribute := Option (Nat × Nat)

namespace pugi

/-- Modelled from the spec: the engine's node-kind query (`xml_node::type`), which is
not part of the sources; the null position has kind `node_null`. -/
def type (s : Store) (n : xml_node) : xml_node_type :=
  match n with
  | none => node_null
  | some a =>
    match s[a]? with
    | none => node_null
    | some nd => nd.type

/-- Modelled from the spec: the engine's "first child" capability
(`xml_node::first_child`); null when there is no child. -/
def first_child (s : Store) (n : xml_node) : xml_node :=
  match n with
  | none => none
  | some a =>
    match s[a]? with
    | none => none
    | some nd => nd.children.head?

/-- Modelled from the spec: which parent kinds accept which child kinds in the
engine's child insertion: only documents and elements have children, a document
or null node is never inserted, and declarations and doctypes live directly
under the document. -/
def allow_insert_child (parent child : xml_node_type) : Bool :=
  if parent ≠ node_document ∧ parent ≠ node_element then false
  else if child = node_document ∨ child = node_null then false
  else if parent ≠ node_document ∧ (child = node_declaration ∨ child = node_doctype) then
    false
  else true

/-- Modelled from the spec: the record of a node the engine has just created under
parent `a`: no value, no attribute, no child; a declaration is born with the name
`xml`, every other kind unnamed. -/
def fresh_node (a : Nat) (t : xml_node_type) : xml_node_struct :=
  { type := t, name := if t = node_declaration then "xml" else "", value := "",
    parent := some a, attributes := [], children := [] }

/-- Modelled from the spec: the engine's "insert child" capability
(`xml_node::append_child(type)`): a fresh node of the given kind becomes the last
child of `n`; the null position is returned, and nothing changes, when `n` does
not accept such a child. -/
def append_child (s : Store) (n : xml_node) (t : xml_node_type) : Store × xml_node :=
  match n with
  | none => (s, none)
  | some a =>
    match s[a]? with
    | none => (s, none)
    | some nd =>
      if allow_insert_child nd.type t then
        ((s.set a { nd with children := nd.children ++ [s.length] }) ++ [fresh_node a t],
          some s.length)
      else (s, none)

/-- Modelled from the spec: the engine's "node text content set" capability
(`xml_node::set_value`): only nodes that carry a value accept one. -/
def set_value (s : Store) (n : xml_node) (v : String) : Store :=
  match n with
  | none => s
  | some a =>
    match s[a]? with
    | none => s
    | some nd =>
      if nd.type = node_pcdata ∨ nd.type = node_cdata ∨ nd.type = node_comment
          ∨ nd.type = node_pi ∨ nd.type = node_doctype then
        s.set a { nd with value := v }
      else s

/-- Modelled from the spec: the engine's test for a text-content node (plain or
character-data text). -/
def is_text_node (t : xml_node_type) : Bool :=
  t = node_pcdata ∨ t = node_cdata

/-- Modelled from the spec: the engine's "node text content get" capability
(`xml_node::text().as_string()`): the value of the node itself when it is a text
node, otherwise of its first text-content child, otherwise the empty text. -/
def text_as_string (s : Store) (n : xml_node) : String :=
  match n with
  | none => ""
  | some a =>
    match s[a]? with
    | none => ""
    | some nd =>
      if is_text_node nd.type then nd.value
      else
        match nd.children.find? (fun c => is_text_node (type s (some c))) with
        | none => ""
        | some c =>
          match s[c]? with
          | none => ""
          | some cn => cn.value

/-- Modelled from the spec: the engine's walk over the ordered attribute storage, giving
the ordinal of the first slot with the given name. -/
def find_attribute (name : String) : List xml_attribute_struct → Option Nat
  | [] => none
  | a :: rest =>
    if a.name = name then some 0
    else
      match find_attribute name rest with
      | none => none
      | some i => some (i + 1)

/-- Modelled from the spec: the engine's attribute lookup by name
(`xml_node::attribute(name)`): the first slot with that name, or null. -/
def node_attribute (s : Store) (n : xml_node) (name : String) : xml_attribute :=
  match n with
  | none => none
  | some a =>
    match s[a]? with
    | none => none
    | some nd =>
      match find_attribute name nd.attributes with
      | none => none
      | some i => some (a, i)

/-- Modelled from the spec: the engine's attribute creation
(`xml_node::append_attribute(name)`): attributes are stored per element (and on
the declaration node); a new empty-valued slot becomes the last attribute. -/
def append_attribute (s : Store) (n : xml_node) (name : String) : Store × xml_attribute :=
  match n with
  | none => (s, none)
  | some a =>
    match s[a]? with
    | none => (s, none)
    | some nd =>
      if nd.type = node_element ∨ nd.type = node_declaration then
        (s.set a { nd with attributes := nd.attributes ++ [{ name := name, value := "" }] },
          some (a, nd.attributes.length))
      else (s, none)

/-- Modelled from the spec: the engine's attribute value store
(`xml_attribute::set_value`): nothing happens on the null attribute. -/
def attribute_set_value (s : Store) (att : xml_attribute) (v : String) : Store :=
  match att with
  | none => s
  | some (a, i) =>
    match s[a]? with
    | none => s
    | some nd =>
      match nd.attributes[i]? with
      | none => s
      | some slot => s.set a { nd with attributes := nd.attributes.set i { slot with value := v } }

/-- Modelled from the spec: the engine's node name query (`xml_node::name`); the
null position has the empty name. -/
def name (s : Store) (n : xml_node) : String :=
  match n with
  | none => ""
  | some a =>
    match s[a]? with
    | none => ""
    | some nd => nd.name

/-- Modelled from the spec: the engine's "first child, name-filtered" capability
(`xml_node::child(name)`): the first child with that name, or null. -/
def child (s : Store) (n : xml_node) (nm : String) : xml_node :=
  match n with
  | none => none
  | some a =>
    match s[a]? with
    | none => none
    | some nd => nd.children.find? (fun c => name s (some c) = nm)

/-- Modelled from the spec: the engine's sibling link, read off the parent's ordered
child list: the entry that follows the first occurrence of `a`. -/
def next_in (a : Nat) : List Nat → xml_node
  | [] => none
  | [_] => none
  | x :: y :: rest => if x = a then some y else next_in a (y :: rest)

/-- Modelled from the spec: the engine's "next sibling" capability
(`xml_node::next_sibling()`): the node after this one among the children of its
parent, null at the boundary and on the null position. -/
def next_sibling (s : Store) (n : xml_node) : xml_node :=
  match n with
  | none => none
  | some a =>
    match s[a]? with
    | none => none
    | some nd =>
      match nd.parent with
      | none => none
      | some p =>
        match s[p]? with
        | none => none
        | some pn => next_in a pn.children

/-- Modelled from the spec: an engine range over children,
`pugi::xml_object_range<It>`: the position its begin iterator stands on (null when
the range is empty), the parent, and the name filter of the named kind (`none` for
the unfiltered kind). -/
structure xml_object_range where
  first : xml_node
  parent : xml_node
  filter : Option String
  deriving DecidableEq, Repr

/-- Modelled from the spec: the engine's unfiltered child range
(`xml_node::children()`), which begins at the first child. -/
def children (s : Store) (n : xml_node) : xml_object_range :=
  { first := first_child s n, parent := n, filter := none }

/-- Modelled from the spec: the engine's name-filtered child range
(`xml_node::children(name)`), which begins at the first child with that name. -/
def children_named (s : Store) (n : xml_node) (nm : String) : xml_object_range :=
  { first := child s n nm, parent := n, filter := some nm }

/-- Modelled from the spec: the ordering classification of a query result,
`xpath_node_set::type_t`. -/
inductive type_t where
  | type_unsorted
  | type_sorted
  | type_sorted_reverse
  deriving DecidableEq, Repr

/-- Modelled from the spec: a query result of the engine, `pugi::xpath_node_set`: the
classification and the matched node positions in their current order. -/
structure xpath_node_set where
  type_ : type_t
  nodes : List Nat
  deriving DecidableEq, Repr

/-- Modelled from the spec: the nodes of the subtree below `a` in depth-first,
left-to-right order (the glossary's document order); `fuel` bounds the depth. -/
def preorder (s : Store) : Nat → Nat → List Nat
  | 0, _ => []
  | fuel + 1, a =>
    a :: (match s[a]? with
      | none => []
      | some nd => (nd.children.map (fun c => preorder s fuel c)).flatten)

/-- Modelled from the spec: document order, the rank of a node in the depth-first,
left-to-right walk of the document `d`. -/
def document_order (s : Store) (d : Nat) (a : Nat) : Nat :=
  (preorder s s.length d).indexOf a

/-- Modelled from the spec: the engine's result sort (`xpath_node_set::sort`):
reorders the matches by document order, ascending unless `reverse`. -/
def xpath_node_set.sort (s : Store) (d : Nat) (r : xpath_node_set) (reverse : Bool) :
    xpath_node_set :=
  if reverse then
    { type_ := type_t.type_sorted_reverse,
      nodes := r.nodes.insertionSort (fun x y => document_order s d y ≤ document_order s d x) }
  else
    { type_ := type_t.type_sorted,
      nodes := r.nodes.insertionSort (fun x y => document_order s d x ≤ document_order s d y) }

/-- Modelled from the spec: the engine's first match by document order
(`xpath_node_set::first`): the first match of a set sorted in document order,
the last match of a set sorted in reverse, the least match of an unsorted set;
null for the empty set. -/
def xpath_node_set.first (s : Store) (d : Nat) (r : xpath_node_set) : xml_node :=
  match r.type_ with
  | type_t.type_sorted => r.nodes.head?
  | type_t.type_sorted_reverse => r.nodes.getLast?
  | type_t.type_unsorted =>
    (r.nodes.insertionSort (fun x y => document_order s d x ≤ document_order s d y)).head?

end pugi

/-- A node handle: the owning document (the address of its document node) and a
position in the tree. -/
structure ofXml where
  doc : Nat
  xml : xml_node
  deriving DecidableEq, Repr

namespace ofXml

/-- An attribute handle. -/
structure Attribute where
  attr : xml_attribute
  deriving DecidableEq, Repr

/-- Modelled from the spec: `ofXml::Attribute::operator bool` (defined outside the
header): true iff the attribute position is non-null. -/
def Attribute.toBool (a : Attribute) : Bool := a.attr.isSome

/-- Source `ofXml::Attribute::set` (lines 69-73): overwrite the attribute's stored
value with the stringified value. -/
def Attribute.set {T : Type} (toStr : T → String) (s : Store) (a : Attribute) (value : T) :
    Store × Attribute :=
  (pugi.attribute_set_value s a.attr (toStr value), a)

/-- Modelled from the spec: `ofXml::operator bool` (defined outside the header):
true iff the handle's position is non-null. -/
def toBool (h : ofXml) : Bool := h.xml.isSome

/-- Modelled from the spec: `ofXml::getAttribute` (defined outside the header):
the attribute with that name, an empty handle if absent. -/
def getAttribute (s : Store) (h : ofXml) (name : String) : Attribute :=
  ⟨pugi.node_attribute s h.xml name⟩

/-- Modelled from the spec: `ofXml::appendAttribute` (defined outside the header):
creates a new empty-valued attribute after the existing ones. -/
def appendAttribute (s : Store) (h : ofXml) (name : String) : Store × Attribute :=
  let r := pugi.append_attribute s h.xml name
  (r.1, ⟨r.2⟩)

/-- Source `ofXml::setAttribute` (lines 136-144): look the attribute up by name,
append one when the lookup gave an empty handle, store the stringified value, and
return the handle. -/
def setAttribute {T : Type} (toStr : T → String) (s : Store) (h : ofXml) (name : String)
    (value : T) : Store × Attribute :=
  let attr := getAttribute s h name
  let r := if !attr.toBool then appendAttribute s h name else (s, attr)
  let r2 := Attribute.set toStr r.1 r.2 value
  (r2.1, r.2)

end ofXml

namespace ofXml

/-- Modelled from the spec: `ofXml::getValue()` (defined outside the header; the
template `getValue<T>` of the header reads the same text): the node's text
content, verbatim. -/
def getValue (s : Store) (h : ofXml) : String :=
  pugi.text_as_string s h.xml

/-- Source `ofXml::set<T>` (lines 156-168): on an empty handle an element is first
appended to the owning document; the first child is looked up, a text node is
appended when there is no child, and the child's value is overwritten when the
child is a text node.  The handle is returned because `set` may re-seat it. -/
def set {T : Type} (toStr : T → String) (s : Store) (h : ofXml) (value : T) : Store × ofXml :=
  let r1 : Store × xml_node :=
    if h.xml.isNone then pugi.append_child s (some h.doc) node_element else (s, h.xml)
  let child := pugi.first_child r1.1 r1.2
  let r2 : Store × xml_node :=
    if child.isNone then pugi.append_child r1.1 r1.2 node_pcdata else (r1.1, child)
  let s3 : Store :=
    if pugi.type r2.1 r2.2 = node_pcdata ∨ pugi.type r2.1 r2.2 = node_cdata then
      pugi.set_value r2.1 r2.2 (toStr value)
    else r2.1
  (s3, { doc := h.doc, xml := r1.2 })

/-- Source `ofXml::set(const unsigned char &)` (lines 170-181): the same steps, with
the value widened to `int` before it is stringified.  An `unsigned char` is a
natural number below 256. -/
def set_unsigned_char (toStr : Int → String) (s : Store) (h : ofXml) (value : Nat) :
    Store × ofXml :=
  let r1 : Store × xml_node :=
    if h.xml.isNone then pugi.append_child s (some h.doc) node_element else (s, h.xml)
  let child := pugi.first_child r1.1 r1.2
  let r2 : Store × xml_node :=
    if child.isNone then pugi.append_child r1.1 r1.2 node_pcdata else (r1.1, child)
  let s3 : Store :=
    if pugi.type r2.1 r2.2 = node_pcdata ∨ pugi.type r2.1 r2.2 = node_cdata then
      pugi.set_value r2.1 r2.2 (toStr (Int.ofNat value))
    else r2.1
  (s3, { doc := h.doc, xml := r1.2 })

/-- Modelled from the spec: `ofUtils.h` is not part of the sources; `ofToString` of
an `int` is its decimal numeral. -/
def ofToString_int (i : Int) : String := toString i

/-- Modelled from the spec: `ofXml::getChild` (defined outside the header): the first
child with the given tag name, or an empty handle. -/
def getChild (s : Store) (h : ofXml) (nm : String) : ofXml :=
  { doc := h.doc, xml := pugi.child s h.xml nm }

/-- Modelled from the spec: `ofXml::getNextSibling()` (defined outside the header):
the next sibling, an empty handle at the boundary. -/
def getNextSibling (s : Store) (h : ofXml) : ofXml :=
  { doc := h.doc, xml := pugi.next_sibling s h.xml }

/-- The range type `ofXml::Range<It>`: the owning document and the engine range. -/
structure Range where
  doc : Nat
  range : xml_object_range
  deriving DecidableEq, Repr

/-- Modelled from the spec: `ofXml::getChildren()` (defined outside the header): a
view over all children. -/
def getChildren (s : Store) (h : ofXml) : Range :=
  { doc := h.doc, range := pugi.children s h.xml }

/-- Modelled from the spec: `ofXml::getChildren(name)` (defined outside the header):
a view over the children, filtered by tag name. -/
def getChildren_named (s : Store) (h : ofXml) (nm : String) : Range :=
  { doc := h.doc, range := pugi.children_named s h.xml nm }

end ofXml

/-- The navigation iterator `ofXmlIterator<It>`: it wraps one node handle. -/
structure ofXmlIterator where
  xml : ofXml
  deriving DecidableEq, Repr

namespace ofXmlIterator

/-- Source `ofXmlIterator::operator==` (lines 210-212): compares the positions of the
wrapped handles. -/
def eq (a b : ofXmlIterator) : Bool := decide (a.xml.xml = b.xml.xml)

/-- Source `ofXmlIterator::operator!=` (lines 214-216): compares the positions of the
wrapped handles. -/
def ne (a b : ofXmlIterator) : Bool := decide (a.xml.xml ≠ b.xml.xml)

/-- Source `ofXmlIterator::operator*` (lines 218-220): the wrapped handle. -/
def deref (a : ofXmlIterator) : ofXml := a.xml

/-- Source pre-increment `operator++()` (lines 226-229): the wrapped handle is replaced
by its next sibling; the result is the iterator after the step. -/
def preIncrement (s : Store) (a : ofXmlIterator) : ofXmlIterator :=
  { xml := ofXml.getNextSibling s a.xml }

/-- Source post-increment `operator++(int)` (lines 231-235): the returned iterator and
the iterator after the step. -/
def postIncrement (s : Store) (a : ofXmlIterator) : ofXmlIterator × ofXmlIterator :=
  let now := a.xml
  ({ xml := now }, { xml := ofXml.getNextSibling s a.xml })

/-- The iterator after `n` pre-increments. -/
def advance (s : Store) : Nat → ofXmlIterator → ofXmlIterator
  | 0, it => it
  | n + 1, it => advance s n (preIncrement s it)

/-- The loop `for (it = first; it != last; ++it) visit(*it)`: the handles visited,
in order; `fuel` bounds the number of rounds. -/
def visit (s : Store) (last : ofXmlIterator) : Nat → ofXmlIterator → List ofXml
  | 0, _ => []
  | fuel + 1, it =>
    if ne it last then deref it :: visit s last fuel (preIncrement s it) else []

end ofXmlIterator

namespace ofXml

/-- Source `Range::begin` (line 83): an iterator on the position the engine range begins at. -/
def Range.begin (r : Range) : ofXmlIterator :=
  { xml := { doc := r.doc, xml := r.range.first } }

/-- Source `Range::end` (line 84): an iterator on the empty handle. -/
def Range.end_ (r : Range) : ofXmlIterator :=
  { xml := { doc := r.doc, xml := none } }

/-- The query result set `ofXml::Search`: the owning document and the engine's
result. -/
structure Search where
  doc : Nat
  search : xpath_node_set
  deriving DecidableEq, Repr

/-- Modelled from the spec: `Search::size` (defined outside the header): the number
of matches. -/
def Search.size (r : Search) : Nat := r.search.nodes.length

/-- Modelled from the spec: `Search::operator[]` (defined outside the header): the
match at that position of the current order; out of range the handle is empty. -/
def Search.index (r : Search) (i : Nat) : ofXml :=
  { doc := r.doc, xml := r.search.nodes[i]? }

/-- Modelled from the spec: `Search::sort` (defined outside the header): reorders the
matches by document order, ascending unless `reverse`. -/
def Search.sort (s : Store) (r : Search) (reverse : Bool) : Search :=
  { doc := r.doc, search := r.search.sort s r.doc reverse }

/-- Modelled from the spec: `Search::getFirst` (defined outside the header, which
documents it as the first node by document order): empty on the empty set. -/
def Search.getFirst (s : Store) (r : Search) : ofXml :=
  { doc := r.doc, xml := r.search.first s r.doc }

/-- Modelled from the spec: `Search::empty` (defined outside the header). -/
def Search.empty (r : Search) : Bool := r.search.nodes.isEmpty

end ofXml

/-- The parent recorded for the node at address `c`. -/
def parent_of (s : Store) (c : Nat) : Option Nat :=
  match s[c]? with
  | none => none
  | some cn => cn.parent

/-- Tree shape of a store: the child list of every node has no repetition, and
every listed child is a node of the store that records this node as its parent. -/
def wellFormed (s : Store) : Prop :=
  ∀ p ∈ s.enum, p.2.children.Nodup ∧ ∀ c ∈ p.2.children, parent_of s c = some p.1

instance (s : Store) : Decidable (wellFormed s) := by
  unfold wellFormed; infer_instance

/-- The handles on which `set` can place text: an empty handle whose owner is a
document node, or a handle on a document or element node that has no child or
whose first child is a text node. -/
def ofXml.textSettable (s : Store) (h : ofXml) : Bool :=
  match h.xml with
  | none => decide (pugi.type s (some h.doc) = node_document)
  | some a =>
    decide (pugi.type s (some a) = node_document ∨ pugi.type s (some a) = node_element) &&
    (match pugi.first_child s (some a) with
      | none => true
      | some c => pugi.is_text_node (pugi.type s (some c)))

/-! ## Sample documents -/

/-- The document `<a x="1" y="2"/>`. -/
def sampleAttrs : Store :=
  [ { type := node_document, name := "", value := "", parent := none, attributes := [],
      children := [1] },
    { type := node_element, name := "a", value := "", parent := some 0,
      attributes := [⟨"x", "1"⟩, ⟨"y", "2"⟩], children := [] } ]

/-- The document `<p><tag/><other/><tag/></p>`. -/
def sampleTags : Store :=
  [ { type := node_document, name := "", value := "", parent := none, attributes := [],
      children := [1] },
    { type := node_element, name := "p", value := "", parent := some 0, attributes := [],
      children := [2, 3, 4] },
    { type := node_element, name := "tag", value := "", parent := some 1, attributes := [],
      children := [] },
    { type := node_element, name := "other", value := "", parent := some 1, attributes := [],
      children := [] },
    { type := node_element, name := "tag", value := "", parent := some 1, attributes := [],
      children := [] } ]

/-- The document `<a><b/></a>`: the first child of `a` is an element. -/
def sampleNested : Store :=
  [ { type := node_document, name := "", value := "", parent := none, attributes := [],
      children := [1] },
    { type := node_element, name := "a", value := "", parent := some 0, attributes := [],
      children := [2] },
    { type := node_element, name := "b", value := "", parent := some 1, attributes := [],
      children := [] } ]

/-- An empty document: only the document node. -/
def sampleEmpty : Store :=
  [ { type := node_document, name := "", value := "", parent := none, attributes := [],
      children := [] } ]

/-! ## Facts about the attribute list -/

theorem find_attribute_some {name : String} {l : List xml_attribute_struct} {i : Nat}
    (h : find_attribute name l = some i) :
    ∃ slot, l[i]? = some slot ∧ slot.name = name ∧
      ∀ j, j < i → ∀ x, l[j]? = some x → x.name ≠ name := by
  induction l generalizing i with
  | nil => simp [find_attribute] at h
  | cons a rest ih =>
    unfold find_attribute at h
    by_cases ha : a.name = name
    · simp [ha] at h
      subst h
      exact ⟨a, by simp, ha, by intro j hj; omega⟩
    · simp only [ha, if_false] at h
      cases hr : find_attribute name rest with
      | none => simp [hr] at h
      | some k =>
        simp [hr] at h
        subst h
        obtain ⟨slot, h1, h2, h3⟩ := ih hr
        refine ⟨slot, by simpa using h1, h2, ?_⟩
        intro j hj x hx
        cases j with
        | zero => simp at hx; subst hx; exact ha
        | succ j => exact h3 j (by omega) x (by simpa using hx)

theorem find_attribute_none {name : String} {l : List xml_attribute_struct}
    (h : find_attribute name l = none) : ∀ x ∈ l, x.name ≠ name := by
  induction l with
  | nil => simp
  | cons a rest ih =>
    unfold find_attribute at h
    by_cases ha : a.name = name
    · simp [ha] at h
    · simp only [ha, if_false] at h
      cases hr : find_attribute name rest with
      | none =>
        intro x hx
        rcases List.mem_cons.1 hx with rfl | hx
        · exact ha
        · exact ih hr x hx
      | some k => simp [hr] at h

theorem find_attribute_isSome_iff (name : String) (l : List xml_attribute_struct) :
    (find_attribute name l).isSome = true ↔ ∃ x ∈ l, x.name = name := by
  constructor
  · intro h
    cases hf : find_attribute name l with
    | none => simp [hf] at h
    | some i =>
      obtain ⟨slot, h1, h2, _⟩ := find_attribute_some hf
      exact ⟨slot, List.getElem?_mem h1, h2⟩
  · rintro ⟨x, hx, hn⟩
    cases hf : find_attribute name l with
    | none => exact absurd hn (find_attribute_none hf x hx)
    | some i => rfl

theorem find_attribute_set_value {name : String} {l : List xml_attribute_struct} {i : Nat}
    {slot : xml_attribute_struct} (v : String) (h : l[i]? = some slot) :
    find_attribute name (l.set i { slot with value := v }) = find_attribute name l := by
  induction l generalizing i with
  | nil => simp
  | cons a rest ih =>
    cases i with
    | zero =>
      simp at h
      subst h
      simp [find_attribute]
    | succ i =>
      simp at h
      simp [find_attribute, ih h]

theorem find_attribute_append_new {name : String} {l : List xml_attribute_struct} (v : String)
    (h : find_attribute name l = none) :
    find_attribute name (l ++ [{ name := name, value := v }]) = some l.length := by
  induction l with
  | nil => simp [find_attribute]
  | cons a rest ih =>
    unfold find_attribute at h
    by_cases ha : a.name = name
    · simp [ha] at h
    · simp only [ha, if_false] at h
      cases hr : find_attribute name rest with
      | none => simp [find_attribute, ha, ih hr]
      | some k => simp [hr] at h

/-! ## setAttribute computed -/

theorem setAttribute_found {T : Type} (toStr : T → String) {s : Store} (d : Nat) {a : Nat}
    {nd : xml_node_struct} {name : String} {i : Nat} {slot : xml_attribute_struct} (v : T)
    (hnd : s[a]? = some nd) (hf : find_attribute name nd.attributes = some i)
    (hslot : nd.attributes[i]? = some slot) :
    ofXml.setAttribute toStr s ⟨d, some a⟩ name v
      = (s.set a { nd with attributes := nd.attributes.set i { slot with value := toStr v } },
          ⟨some (a, i)⟩) := by
  simp [ofXml.setAttribute, ofXml.getAttribute, pugi.node_attribute, hnd, hf,
    ofXml.Attribute.toBool, ofXml.Attribute.set, pugi.attribute_set_value, hslot]

theorem setAttribute_missing {T : Type} (toStr : T → String) {s : Store} (d : Nat) {a : Nat}
    {nd : xml_node_struct} {name : String} (v : T)
    (hnd : s[a]? = some nd) (ht : nd.type = node_element ∨ nd.type = node_declaration)
    (hf : find_attribute name nd.attributes = none) :
    ofXml.setAttribute toStr s ⟨d, some a⟩ name v
      = (s.set a { nd with
            attributes := nd.attributes ++ [{ name := name, value := toStr v }] },
          ⟨some (a, nd.attributes.length)⟩) := by
  have ha : a < s.length := by
    rcases Nat.lt_or_ge a s.length with h | h
    · exact h
    · rw [List.getElem?_eq_none h] at hnd; cases hnd
  simp [ofXml.setAttribute, ofXml.getAttribute, pugi.node_attribute, hnd, hf,
    ofXml.Attribute.toBool, ofXml.Attribute.set, pugi.attribute_set_value,
    ofXml.appendAttribute, pugi.append_attribute, ht, ha]

theorem setAttribute_refused {T : Type} (toStr : T → String) {s : Store} (d : Nat) {a : Nat}
    {nd : xml_node_struct} {name : String} (v : T)
    (hnd : s[a]? = some nd) (ht : ¬ (nd.type = node_element ∨ nd.type = node_declaration))
    (hf : find_attribute name nd.attributes = none) :
    ofXml.setAttribute toStr s ⟨d, some a⟩ name v = (s, ⟨none⟩) := by
  simp [ofXml.setAttribute, ofXml.getAttribute, pugi.node_attribute, hnd, hf,
    ofXml.Attribute.toBool, ofXml.Attribute.set, pugi.attribute_set_value,
    ofXml.appendAttribute, pugi.append_attribute, ht]

theorem setAttribute_dangling {T : Type} (toStr : T → String) {s : Store} (d : Nat) {a : Nat}
    {name : String} (v : T) (hnd : s[a]? = none) :
    ofXml.setAttribute toStr s ⟨d, some a⟩ name v = (s, ⟨none⟩) := by
  simp [ofXml.setAttribute, ofXml.getAttribute, pugi.node_attribute, hnd,
    ofXml.Attribute.toBool, ofXml.Attribute.set, pugi.attribute_set_value,
    ofXml.appendAttribute, pugi.append_attribute]

theorem setAttribute_null {T : Type} (toStr : T → String) (s : Store) (d : Nat)
    (name : String) (v : T) :
    ofXml.setAttribute toStr s ⟨d, none⟩ name v = (s, ⟨none⟩) := by
  simp [ofXml.setAttribute, ofXml.getAttribute, pugi.node_attribute,
    ofXml.Attribute.toBool, ofXml.Attribute.set, pugi.attribute_set_value,
    ofXml.appendAttribute, pugi.append_attribute]

theorem getElem?_some_lt {α : Type} {l : List α} {a : Nat} {x : α} (h : l[a]? = some x) :
    a < l.length := by
  rcases Nat.lt_or_ge a l.length with h1 | h1
  · exact h1
  · rw [List.getElem?_eq_none h1] at h; cases h

/-! ## setAttribute: get-or-create, idempotence -/

/-- C1: on a non-empty element handle, `setAttribute(name, v)` returns a non-empty
handle on slot `i` of the element's attribute list; the store changes only in the
attribute list of that element; slot `i` holds `name` with the stringified value;
every other slot is as before; if an attribute named `name` existed, the list has
its old length and slot `i` is the first slot that had that name; if none existed,
the list is the old list followed by the one new attribute. -/
theorem setAttribute_get_or_create {T : Type} (toStr : T → String) (s : Store) (d a : Nat)
    (nd : xml_node_struct) (name : String) (v : T)
    (hnd : s[a]? = some nd) (hel : nd.type = node_element) :
    ∃ i nd',
      (ofXml.setAttribute toStr s ⟨d, some a⟩ name v).2 = ⟨some (a, i)⟩ ∧
      (ofXml.setAttribute toStr s ⟨d, some a⟩ name v).2.toBool = true ∧
      (ofXml.setAttribute toStr s ⟨d, some a⟩ name v).1 = s.set a nd' ∧
      nd' = { nd with attributes := nd'.attributes } ∧
      nd'.attributes[i]? = some ⟨name, toStr v⟩ ∧
      (∀ j, j ≠ i → nd'.attributes[j]? = nd.attributes[j]?) ∧
      ((∃ x ∈ nd.attributes, x.name = name) →
        nd'.attributes.length = nd.attributes.length ∧
        (∃ old, nd.attributes[i]? = some old ∧ old.name = name) ∧
        ∀ j, j < i → ∀ x, nd.attributes[j]? = some x → x.name ≠ name) ∧
      ((¬ ∃ x ∈ nd.attributes, x.name = name) →
        nd'.attributes = nd.attributes ++ [⟨name, toStr v⟩] ∧ i = nd.attributes.length) := by
  cases hf : find_attribute name nd.attributes with
  | some i =>
    obtain ⟨slot, hslot, hname, hfirst⟩ := find_attribute_some hf
    have hi : i < nd.attributes.length := getElem?_some_lt hslot
    refine ⟨i, { nd with attributes := nd.attributes.set i { slot with value := toStr v } },
      ?_, ?_, ?_, rfl, ?_, ?_, ?_, ?_⟩
    · rw [setAttribute_found toStr d v hnd hf hslot]
    · rw [setAttribute_found toStr d v hnd hf hslot]; rfl
    · rw [setAttribute_found toStr d v hnd hf hslot]
    · simp [hi, ← hname]
    · intro j hj
      simp [List.getElem?_set_ne (Ne.symm hj)]
    · intro _
      exact ⟨by simp, ⟨slot, hslot, hname⟩, hfirst⟩
    · intro hno
      exact absurd ⟨slot, List.getElem?_mem hslot, hname⟩ hno
  | none =>
    have hall := find_attribute_none hf
    refine ⟨nd.attributes.length,
      { nd with attributes := nd.attributes ++ [⟨name, toStr v⟩] }, ?_, ?_, ?_, rfl, ?_, ?_, ?_, ?_⟩
    · rw [setAttribute_missing toStr d v hnd (Or.inl hel) hf]
    · rw [setAttribute_missing toStr d v hnd (Or.inl hel) hf]; rfl
    · rw [setAttribute_missing toStr d v hnd (Or.inl hel) hf]
    · simp
    · intro j hj
      rcases Nat.lt_or_ge j nd.attributes.length with h | h
      · simp [List.getElem?_append_left h]
      · have h2 : nd.attributes.length < j := by omega
        rw [List.getElem?_eq_none (by simp; omega), List.getElem?_eq_none (by omega)]
    · rintro ⟨x, hx, hn⟩
      exact absurd hn (hall x hx)
    · intro _
      exact ⟨rfl, rfl⟩

/-- Witness for C1: the element `<a x="1" y="2"/>` of the sample document; setting
`y` returns a non-empty handle on the second slot. -/
theorem setAttribute_get_or_create_witness :
    sampleAttrs[1]? = some ⟨node_element, "a", "", some 0, [⟨"x", "1"⟩, ⟨"y", "2"⟩], []⟩ ∧
    ∃ i, (ofXml.setAttribute (fun n : Nat => toString n) sampleAttrs ⟨0, some 1⟩ "y" 7).2
        = ⟨some (1, i)⟩ ∧
      (ofXml.setAttribute (fun n : Nat => toString n) sampleAttrs ⟨0, some 1⟩ "y" 7).2.toBool
        = true := by
  obtain ⟨i, _, h1, h2, _⟩ :=
    setAttribute_get_or_create (fun n : Nat => toString n) sampleAttrs 0 1
      ⟨node_element, "a", "", some 0, [⟨"x", "1"⟩, ⟨"y", "2"⟩], []⟩ "y" 7
      (by decide) (by decide)
  exact ⟨by decide, i, h1, h2⟩

/-- C2: `setAttribute` is idempotent: a second call with the same name and value
returns the same handle and leaves the store exactly as the first call left it. -/
theorem setAttribute_idempotent {T : Type} (toStr : T → String) (s : Store) (h : ofXml)
    (name : String) (v : T) :
    ofXml.setAttribute toStr (ofXml.setAttribute toStr s h name v).1 h name v
      = ofXml.setAttribute toStr s h name v := by
  obtain ⟨d, x⟩ := h
  cases x with
  | none => simp [setAttribute_null]
  | some a =>
    cases hnd : s[a]? with
    | none => simp [setAttribute_dangling toStr d v hnd, hnd]
    | some nd =>
      have ha : a < s.length := getElem?_some_lt hnd
      cases hf : find_attribute name nd.attributes with
      | some i =>
        obtain ⟨slot, hslot, hname, _⟩ := find_attribute_some hf
        have hi : i < nd.attributes.length := getElem?_some_lt hslot
        rw [setAttribute_found toStr d v hnd hf hslot]
        have h1 : (s.set a { nd with
            attributes := nd.attributes.set i { slot with value := toStr v } })[a]?
            = some { nd with
                attributes := nd.attributes.set i { slot with value := toStr v } } := by
          simp [ha]
        have h2 : find_attribute name ({ nd with
            attributes := nd.attributes.set i { slot with value := toStr v } }
              : xml_node_struct).attributes = some i := by
          simp only []
          rw [find_attribute_set_value (toStr v) hslot]; exact hf
        have h3 : ({ nd with attributes := nd.attributes.set i { slot with value := toStr v } }
              : xml_node_struct).attributes[i]?
            = some { slot with value := toStr v } := by
          simp [hi]
        rw [setAttribute_found toStr d v h1 h2 h3]
        simp
      | none =>
        by_cases ht : nd.type = node_element ∨ nd.type = node_declaration
        · rw [setAttribute_missing toStr d v hnd ht hf]
          have h1 : (s.set a { nd with
              attributes := nd.attributes ++ [{ name := name, value := toStr v }] })[a]?
              = some { nd with
                  attributes := nd.attributes ++ [{ name := name, value := toStr v }] } := by
            simp [ha]
          have h2 : find_attribute name ({ nd with
              attributes := nd.attributes ++ [{ name := name, value := toStr v }] }
                : xml_node_struct).attributes = some nd.attributes.length :=
            find_attribute_append_new (toStr v) hf
          have h3 : ({ nd with
              attributes := nd.attributes ++ [{ name := name, value := toStr v }] }
                : xml_node_struct).attributes[nd.attributes.length]?
              = some { name := name, value := toStr v } := by
            simp
          rw [setAttribute_found toStr d v h1 h2 h3]
          simp
        · rw [setAttribute_refused toStr d v hnd ht hf]
          simp [setAttribute_refused toStr d v hnd ht hf]

/-! ## Children ranges and iterators -/

/-- C3: on the parent `<p><tag/><other/><tag/></p>`, the loop from `begin()` to `end()`
over `getChildren("tag")` visits three handles, the second of which is the child
named `other`; the children named `tag` are only the first and the third. -/
theorem getChildren_named_visits_every_sibling (fuel : Nat) :
    (ofXmlIterator.visit sampleTags (ofXml.getChildren_named sampleTags ⟨0, some 1⟩ "tag").end_
        (fuel + 4) (ofXml.getChildren_named sampleTags ⟨0, some 1⟩ "tag").begin).map
        (fun h => (h.xml, pugi.name sampleTags h.xml))
      = [(some 2, "tag"), (some 3, "other"), (some 4, "tag")] ∧
    [2, 3, 4].filter (fun c => pugi.name sampleTags (some c) = "tag") = [2, 4] := by
  constructor
  · rfl
  · decide

/-- C7: an empty handle converts to false, and `getChild`, `getNextSibling` and
`getAttribute` on it return empty handles, in every store and for every name. -/
theorem empty_handle_navigation (s : Store) (d : Nat) (x : String) :
    ofXml.toBool ⟨d, none⟩ = false ∧
    (ofXml.getChild s ⟨d, none⟩ x).toBool = false ∧
    (ofXml.getNextSibling s ⟨d, none⟩).toBool = false ∧
    (ofXml.getAttribute s ⟨d, none⟩ x).toBool = false := by
  refine ⟨rfl, rfl, rfl, rfl⟩

/-- C9: two iterators are equal exactly when the positions of their wrapped handles
are the same, whatever their owning documents; `!=` is the negation of `==`; and an
iterator equals the end sentinel of a range exactly when its handle is empty. -/
theorem iterator_equality (a b : ofXmlIterator) (r : ofXml.Range) (d1 d2 : Nat)
    (p : xml_node) :
    (ofXmlIterator.eq a b = true ↔ a.xml.xml = b.xml.xml) ∧
    ofXmlIterator.eq ⟨⟨d1, p⟩⟩ ⟨⟨d2, p⟩⟩ = true ∧
    ofXmlIterator.ne a b = !ofXmlIterator.eq a b ∧
    (ofXmlIterator.eq a r.end_ = true ↔ a.xml.toBool = false) := by
  refine ⟨by simp [ofXmlIterator.eq], by simp [ofXmlIterator.eq], ?_, ?_⟩
  · simp [ofXmlIterator.eq, ofXmlIterator.ne]
  · cases h : a.xml.xml <;> simp [ofXmlIterator.eq, ofXml.Range.end_, ofXml.toBool, h]

theorem next_in_getElem {l : List Nat} (hl : l.Nodup) {i : Nat} {c : Nat}
    (hc : l[i]? = some c) : next_in c l = l[i + 1]? := by
  induction l generalizing i with
  | nil => simp at hc
  | cons x rest ih =>
    cases rest with
    | nil =>
      cases i with
      | zero => simp [next_in]
      | succ i => simp at hc
    | cons y rest =>
      cases i with
      | zero =>
        simp at hc
        subst hc
        simp [next_in]
      | succ i =>
        have hc' : (y :: rest)[i]? = some c := by simpa using hc
        have hmem : c ∈ y :: rest := List.getElem?_mem hc'
        have hx : x ≠ c := by
          intro h
          subst h
          exact (List.nodup_cons.1 hl).1 hmem
        have := ih (List.nodup_cons.1 hl).2 hc'
        simp [next_in, hx, this]

theorem wellFormed_node {s : Store} (hwf : wellFormed s) {a : Nat} {nd : xml_node_struct}
    (hnd : s[a]? = some nd) :
    nd.children.Nodup ∧ ∀ c ∈ nd.children, parent_of s c = some a :=
  hwf (a, nd) (List.mk_mem_enum_iff_getElem?.2 hnd)

theorem next_sibling_child {s : Store} (hwf : wellFormed s) {a : Nat} {nd : xml_node_struct}
    (hnd : s[a]? = some nd) {i : Nat} {c : Nat} (hc : nd.children[i]? = some c) :
    pugi.next_sibling s (some c) = nd.children[i + 1]? := by
  obtain ⟨hnodup, hpar⟩ := wellFormed_node hwf hnd
  have hp := hpar c (List.getElem?_mem hc)
  unfold parent_of at hp
  cases hcn : s[c]? with
  | none => simp [hcn] at hp
  | some cn =>
    simp [hcn] at hp
    simp [pugi.next_sibling, hcn, hp, hnd, next_in_getElem hnodup hc]

theorem advance_children {s : Store} (hwf : wellFormed s) (d : Nat) {a : Nat}
    {nd : xml_node_struct} (hnd : s[a]? = some nd) (i j : Nat) :
    ofXmlIterator.advance s i ⟨⟨d, nd.children[j]?⟩⟩ = ⟨⟨d, nd.children[j + i]?⟩⟩ := by
  induction i generalizing j with
  | zero => rfl
  | succ i ih =>
    have hstep : ofXmlIterator.preIncrement s ⟨⟨d, nd.children[j]?⟩⟩
        = ⟨⟨d, nd.children[j + 1]?⟩⟩ := by
      cases hc : nd.children[j]? with
      | none =>
        have hj : nd.children.length ≤ j := by
          rcases Nat.lt_or_ge j nd.children.length with h | h
          · rw [List.getElem?_eq_getElem h] at hc; cases hc
          · exact h
        simp [ofXmlIterator.preIncrement, ofXml.getNextSibling, pugi.next_sibling,
          List.getElem?_eq_none (show nd.children.length ≤ j + 1 by omega)]
      | some c =>
        simp [ofXmlIterator.preIncrement, ofXml.getNextSibling,
          next_sibling_child hwf hnd hc]
    show ofXmlIterator.advance s i (ofXmlIterator.preIncrement s ⟨⟨d, nd.children[j]?⟩⟩) = _
    rw [hstep, ih (j + 1)]
    congr 3
    omega

theorem visit_children {s : Store} (hwf : wellFormed s) (d : Nat) {a : Nat}
    {nd : xml_node_struct} (hnd : s[a]? = some nd) (fuel j : Nat)
    (hfuel : nd.children.length < j + fuel) :
    ofXmlIterator.visit s ⟨⟨d, none⟩⟩ fuel ⟨⟨d, nd.children[j]?⟩⟩
      = (nd.children.drop j).map (fun c => ⟨d, some c⟩) := by
  induction fuel generalizing j with
  | zero =>
    have : nd.children.length ≤ j := by omega
    simp [ofXmlIterator.visit, List.drop_eq_nil_of_le this]
  | succ fuel ih =>
    rcases Nat.lt_or_ge j nd.children.length with h | h
    · have hc : nd.children[j]? = some nd.children[j] := List.getElem?_eq_getElem h
      have hstep : ofXmlIterator.preIncrement s ⟨⟨d, nd.children[j]?⟩⟩
          = ⟨⟨d, nd.children[j + 1]?⟩⟩ := by
        simp [ofXmlIterator.preIncrement, ofXml.getNextSibling, hc,
          next_sibling_child hwf hnd hc]
      unfold ofXmlIterator.visit
      rw [hstep, ih (j + 1) (by omega)]
      rw [List.drop_eq_getElem_cons h, List.map_cons]
      simp only [ofXmlIterator.ne, ofXmlIterator.deref, hc]
      simp
    · simp [ofXmlIterator.visit, ofXmlIterator.ne, List.getElem?_eq_none h,
        List.drop_eq_nil_of_le h]

theorem parent_of_some_lt {s : Store} {c p : Nat} (h : parent_of s c = some p) :
    c < s.length := by
  unfold parent_of at h
  cases hc : s[c]? with
  | none => simp [hc] at h
  | some cn => exact getElem?_some_lt hc

theorem wellFormed_append_child {s : Store} (hwf : wellFormed s) (n : xml_node)
    (t : xml_node_type) : wellFormed (pugi.append_child s n t).1 := by
  cases n with
  | none => exact hwf
  | some a =>
    cases hnd : s[a]? with
    | none => simpa [pugi.append_child, hnd] using hwf
    | some nd =>
      cases hallow : allow_insert_child nd.type t with
      | false => simpa [pugi.append_child, hnd, hallow] using hwf
      | true =>
        have ha : a < s.length := getElem?_some_lt hnd
        obtain ⟨hnodup, hpar⟩ := wellFormed_node hwf hnd
        have hS : (pugi.append_child s (some a) t).1
            = s.set a { nd with children := nd.children ++ [s.length] }
                ++ [fresh_node a t] := by
          simp [pugi.append_child, hnd, hallow]
        rw [hS]
        have hkeep : ∀ c p, parent_of s c = some p →
            parent_of (s.set a { nd with children := nd.children ++ [s.length] }
                ++ [fresh_node a t]) c = some p := by
          intro c p hc
          have hcl := parent_of_some_lt hc
          unfold parent_of at hc ⊢
          rw [List.getElem?_append_left (by simpa using hcl)]
          by_cases hac : a = c
          · subst hac
            rw [List.getElem?_set_self ha]
            simpa [hnd] using hc
          · rw [List.getElem?_set_ne hac]
            exact hc
        have hnew : parent_of (s.set a { nd with children := nd.children ++ [s.length] }
            ++ [fresh_node a t]) s.length = some a := by
          unfold parent_of
          rw [List.getElem?_append_right (by simp)]
          simp [fresh_node]
        rintro ⟨i, x⟩ hmem
        have hx := List.mk_mem_enum_iff_getElem?.1 hmem
        have hi : i < s.length + 1 := by
          have := getElem?_some_lt hx
          simpa using this
        rcases Nat.lt_or_ge i s.length with hlt | hge
        · rw [List.getElem?_append_left (by simpa using hlt)] at hx
          by_cases hai : a = i
          · subst hai
            rw [List.getElem?_set_self ha] at hx
            have hx' : x = { nd with children := nd.children ++ [s.length] } := by
              simpa using hx.symm
            subst hx'
            refine ⟨?_, ?_⟩
            · show (nd.children ++ [s.length]).Nodup
              rw [List.nodup_append]
              refine ⟨hnodup, List.nodup_singleton _, ?_⟩
              intro c hc hc'
              have hceq : c = s.length := by simpa using hc'
              subst hceq
              exact absurd (parent_of_some_lt (hpar _ hc)) (Nat.lt_irrefl _)
            · intro c hc
              have hc' : c ∈ nd.children ++ [s.length] := hc
              rcases List.mem_append.1 hc' with h1 | h1
              · exact hkeep c a (hpar c h1)
              · have hceq : c = s.length := by simpa using h1
                subst hceq
                exact hnew
          · rw [List.getElem?_set_ne hai] at hx
            obtain ⟨h1, h2⟩ := wellFormed_node hwf hx
            exact ⟨h1, fun c hc => hkeep c i (h2 c hc)⟩
        · have hieq : i = s.length := by omega
          subst hieq
          rw [List.getElem?_append_right (by simp)] at hx
          have hx' : x = fresh_node a t := by simpa using hx.symm
          subst hx'
          exact ⟨List.nodup_nil, fun c hc => by simp [fresh_node] at hc⟩

/-- C10: in a tree-shaped store, for a node with child list `cs`: after `i` increments
from `begin()` of the unfiltered range the iterator stands on child `i` and differs
from `end()` (for `i` below the number of children), after as many increments as
there are children it equals `end()`, the loop from `begin()` to `end()` visits
exactly the children in document order once it is given more rounds than there are
children, `begin()` equals `end()` when there is no child, and post-increment leaves
the iterator where pre-increment does and returns the iterator as it was. -/
theorem getChildren_iteration (s : Store) (d a : Nat) (nd : xml_node_struct)
    (hwf : wellFormed s) (hnd : s[a]? = some nd) :
    (∀ i, i < nd.children.length →
      (ofXmlIterator.advance s i (ofXml.getChildren s ⟨d, some a⟩).begin).deref
          = ⟨d, nd.children[i]?⟩ ∧
      (ofXmlIterator.advance s i (ofXml.getChildren s ⟨d, some a⟩).begin).deref.toBool = true ∧
      ofXmlIterator.ne (ofXmlIterator.advance s i (ofXml.getChildren s ⟨d, some a⟩).begin)
          (ofXml.getChildren s ⟨d, some a⟩).end_ = true) ∧
    ofXmlIterator.eq
        (ofXmlIterator.advance s nd.children.length (ofXml.getChildren s ⟨d, some a⟩).begin)
        (ofXml.getChildren s ⟨d, some a⟩).end_ = true ∧
    (∀ fuel, nd.children.length < fuel →
      ofXmlIterator.visit s (ofXml.getChildren s ⟨d, some a⟩).end_ fuel
          (ofXml.getChildren s ⟨d, some a⟩).begin
        = nd.children.map (fun c => ⟨d, some c⟩)) ∧
    (nd.children = [] →
      ofXmlIterator.eq (ofXml.getChildren s ⟨d, some a⟩).begin
        (ofXml.getChildren s ⟨d, some a⟩).end_ = true) ∧
    (∀ it : ofXmlIterator,
      (ofXmlIterator.postIncrement s it).2 = ofXmlIterator.preIncrement s it ∧
      (ofXmlIterator.postIncrement s it).1 = it) := by
  have hbegin : (ofXml.getChildren s ⟨d, some a⟩).begin = ⟨⟨d, nd.children[0]?⟩⟩ := by
    simp [ofXml.getChildren, ofXml.Range.begin, pugi.children, pugi.first_child, hnd,
      List.head?_eq_getElem?]
  have hend : (ofXml.getChildren s ⟨d, some a⟩).end_ = ⟨⟨d, none⟩⟩ := rfl
  rw [hbegin, hend]
  refine ⟨?_, ?_, ?_, ?_, ?_⟩
  · intro i hi
    rw [advance_children hwf d hnd i 0]
    simp [ofXmlIterator.deref, ofXmlIterator.ne, ofXml.toBool, List.getElem?_eq_getElem hi]
  · rw [advance_children hwf d hnd nd.children.length 0]
    simp [ofXmlIterator.eq]
  · intro fuel hfuel
    rw [visit_children hwf d hnd fuel 0 (by omega)]
    simp
  · intro hnil
    simp [hnil, ofXmlIterator.eq]
  · intro it
    exact ⟨rfl, rfl⟩

/-- Witness for C10: the node `p` of `<p><tag/><other/><tag/></p>`. -/
theorem getChildren_iteration_witness :
    wellFormed sampleTags ∧
    ofXmlIterator.visit sampleTags (ofXml.getChildren sampleTags ⟨0, some 1⟩).end_ 4
        (ofXml.getChildren sampleTags ⟨0, some 1⟩).begin
      = [⟨0, some 2⟩, ⟨0, some 3⟩, ⟨0, some 4⟩] :=
  ⟨by decide,
    (getChildren_iteration sampleTags 0 1
      ⟨node_element, "p", "", some 0, [], [2, 3, 4]⟩ (by decide) (by decide)).2.2.1 4
      (by decide)⟩

/-! ## Query result sets -/

theorem insertionSort_head_least {α : Type} (key : α → Nat) (l : List α) (hl : l ≠ []) :
    ∃ m, (l.insertionSort (fun x y => key x ≤ key y)).head? = some m ∧ m ∈ l ∧
      ∀ x ∈ l, key m ≤ key x := by
  have htotal : IsTotal α (fun x y => key x ≤ key y) := ⟨fun x y => Nat.le_total _ _⟩
  have htrans : IsTrans α (fun x y => key x ≤ key y) := ⟨fun _ _ _ h1 h2 => Nat.le_trans h1 h2⟩
  have hsorted := List.sorted_insertionSort (fun x y => key x ≤ key y) l
  have hperm := List.perm_insertionSort (fun x y => key x ≤ key y) l
  cases hs : l.insertionSort (fun x y => key x ≤ key y) with
  | nil =>
    rw [hs] at hperm
    exact absurd (List.Perm.nil_eq hperm) (Ne.symm hl)
  | cons m rest =>
    rw [hs] at hsorted hperm
    refine ⟨m, rfl, hperm.subset (List.mem_cons_self m rest), ?_⟩
    intro x hx
    have hx' : x ∈ m :: rest := hperm.symm.subset hx
    rcases List.mem_cons.1 hx' with rfl | hmem
    · exact Nat.le_refl _
    · exact List.rel_of_sorted_cons hsorted x hmem

/-- C8: the size of a result set is its number of matches, and sorting keeps it; when
there is a match, after `sort(false)` the handle at index 0 and `getFirst()` are the
same non-empty handle, on a match that no other match precedes in document order;
when there is no match, `empty()` is true and `getFirst()` is an empty handle. -/
theorem search_first_in_document_order (s : Store) (R : ofXml.Search) :
    R.size = R.search.nodes.length ∧
    (R.sort s false).size = R.size ∧
    (0 < R.size →
      ∃ m, m ∈ R.search.nodes ∧
        (R.sort s false).index 0 = ⟨R.doc, some m⟩ ∧
        (R.sort s false).getFirst s = ⟨R.doc, some m⟩ ∧
        (∀ x ∈ R.search.nodes,
          pugi.document_order s R.doc m ≤ pugi.document_order s R.doc x)) ∧
    (R.size = 0 → R.empty = true ∧ (R.getFirst s).toBool = false) := by
  refine ⟨rfl, ?_, ?_, ?_⟩
  · simp [ofXml.Search.size, ofXml.Search.sort, pugi.xpath_node_set.sort,
      List.length_insertionSort]
  · intro hpos
    have hne : R.search.nodes ≠ [] := by
      intro h
      simp [ofXml.Search.size, h] at hpos
    obtain ⟨m, hhead, hmem, hleast⟩ :=
      insertionSort_head_least (pugi.document_order s R.doc) R.search.nodes hne
    refine ⟨m, hmem, ?_, ?_, hleast⟩
    · simp [ofXml.Search.index, ofXml.Search.sort, pugi.xpath_node_set.sort,
        ← List.head?_eq_getElem?, hhead]
    · simp [ofXml.Search.getFirst, ofXml.Search.sort, pugi.xpath_node_set.sort,
        pugi.xpath_node_set.first, hhead]
  · intro hzero
    have hnil : R.search.nodes = [] := List.length_eq_zero.1 hzero
    refine ⟨by simp [ofXml.Search.empty, hnil], ?_⟩
    cases ht : R.search.type_ <;>
      simp [ofXml.Search.getFirst, pugi.xpath_node_set.first, ht, hnil, ofXml.toBool]

/-- Witness for C8: the three children of `p`, found in the order 4, 2, 3. -/
theorem search_first_in_document_order_witness :
    (ofXml.Search.sort sampleTags ⟨0, ⟨type_t.type_unsorted, [4, 2, 3]⟩⟩ false).getFirst
        sampleTags = ⟨0, some 2⟩ := by
  obtain ⟨m, hm, _, hfirst, hleast⟩ :=
    (search_first_in_document_order sampleTags ⟨0, ⟨type_t.type_unsorted, [4, 2, 3]⟩⟩).2.2.1
      (by decide)
  rw [hfirst]
  have h2 := hleast 2 (by decide)
  have hcases : m = 4 ∨ m = 2 ∨ m = 3 := by simpa using hm
  rcases hcases with rfl | rfl | rfl
  · exact absurd h2 (by decide)
  · rfl
  · exact absurd h2 (by decide)

/-! ## set and getValue -/

theorem getElem?_set_append_length {α : Type} (l : List α) (a : Nat) (y x : α) :
    (l.set a y ++ [x])[l.length]? = some x := by
  rw [List.getElem?_append_right (by simp)]; simp

theorem getElem?_set_append_lt {α : Type} (l : List α) (a : Nat) (y x : α) {b : Nat}
    (hb : b < l.length) : (l.set a y ++ [x])[b]? = (l.set a y)[b]? := by
  rw [List.getElem?_append_left (by simpa using hb)]

theorem set_length_set_append {α : Type} (l : List α) (a : Nat) (y x z : α) :
    (l.set a y ++ [x]).set l.length z = l.set a y ++ [z] := by
  rw [List.set_append_right _ _ (by simp)]; simp

theorem append_child_ok {s : Store} {a : Nat} {nd : xml_node_struct} (t : xml_node_type)
    (hnd : s[a]? = some nd) (hok : allow_insert_child nd.type t = true) :
    pugi.append_child s (some a) t
      = ((s.set a { nd with children := nd.children ++ [s.length] }) ++ [fresh_node a t],
          some s.length) := by
  simp [pugi.append_child, hnd, hok]

theorem append_child_refused {s : Store} {a : Nat} {nd : xml_node_struct} (t : xml_node_type)
    (hnd : s[a]? = some nd) (hok : allow_insert_child nd.type t = false) :
    pugi.append_child s (some a) t = (s, none) := by
  simp [pugi.append_child, hnd, hok]

theorem set_without_child {T : Type} (toStr : T → String) {s : Store} (d : Nat) {a : Nat}
    {nd : xml_node_struct} (v : T) (hnd : s[a]? = some nd) (hnil : nd.children = [])
    (hok : allow_insert_child nd.type node_pcdata = true) :
    ofXml.set toStr s ⟨d, some a⟩ v
      = ((s.set a { nd with children := [s.length] })
            ++ [{ fresh_node a node_pcdata with value := toStr v }],
          ⟨d, some a⟩) := by
  have h1 := append_child_ok node_pcdata hnd hok
  rw [hnil, List.nil_append] at h1
  have hfc : pugi.first_child s (some a) = none := by simp [pugi.first_child, hnd, hnil]
  have hty : pugi.type (s.set a { nd with children := [s.length] }
      ++ [fresh_node a node_pcdata]) (some s.length) = node_pcdata := by
    simp only [pugi.type, getElem?_set_append_length]; rfl
  have hsv : pugi.set_value (s.set a { nd with children := [s.length] }
      ++ [fresh_node a node_pcdata]) (some s.length) (toStr v)
      = s.set a { nd with children := [s.length] }
          ++ [{ fresh_node a node_pcdata with value := toStr v }] := by
    simp only [pugi.set_value, getElem?_set_append_length]
    rw [if_pos (show (fresh_node a node_pcdata).type = node_pcdata ∨ _ from Or.inl rfl),
      set_length_set_append]
  simp only [ofXml.set, Option.isNone_some, Bool.false_eq_true, if_false, hfc,
    Option.isNone_none, if_true, h1, hty, true_or, hsv]

theorem set_on_text_child {T : Type} (toStr : T → String) {s : Store} (d : Nat) {a c : Nat}
    {nd cn : xml_node_struct} {rest : List Nat} (v : T) (hnd : s[a]? = some nd)
    (hch : nd.children = c :: rest) (hcn : s[c]? = some cn)
    (htext : cn.type = node_pcdata ∨ cn.type = node_cdata) :
    ofXml.set toStr s ⟨d, some a⟩ v = (s.set c { cn with value := toStr v }, ⟨d, some a⟩) := by
  have hfc : pugi.first_child s (some a) = some c := by simp [pugi.first_child, hnd, hch]
  have hty : pugi.type s (some c) = cn.type := by simp [pugi.type, hcn]
  have hsv : pugi.set_value s (some c) (toStr v) = s.set c { cn with value := toStr v } := by
    simp only [pugi.set_value, hcn]
    rw [if_pos (by rcases htext with h | h <;> simp [h])]
  simp only [ofXml.set, Option.isNone_some, Bool.false_eq_true, if_false, hfc, hty, htext,
    if_true, hsv]

theorem set_on_other_child {T : Type} (toStr : T → String) {s : Store} (d : Nat) {a c : Nat}
    (v : T) (hfc : pugi.first_child s (some a) = some c)
    (htext : pugi.is_text_node (pugi.type s (some c)) = false) :
    ofXml.set toStr s ⟨d, some a⟩ v = (s, ⟨d, some a⟩) := by
  have hno : ¬ (pugi.type s (some c) = node_pcdata ∨ pugi.type s (some c) = node_cdata) := by
    simpa [pugi.is_text_node] using htext
  simp only [ofXml.set, Option.isNone_some, Bool.false_eq_true, if_false, hfc, hno]

theorem set_refused {T : Type} (toStr : T → String) {s : Store} (d : Nat) {a : Nat}
    (v : T) (hfc : pugi.first_child s (some a) = none)
    (hno : pugi.append_child s (some a) node_pcdata = (s, none)) :
    ofXml.set toStr s ⟨d, some a⟩ v = (s, ⟨d, some a⟩) := by
  simp [ofXml.set, hfc, hno, pugi.type]

theorem set_on_empty_handle {T : Type} (toStr : T → String) {s : Store} {d : Nat}
    {dn : xml_node_struct} (v : T) (hd : s[d]? = some dn) (ht : dn.type = node_document) :
    ofXml.set toStr s ⟨d, none⟩ v
      = ((s.set d { dn with children := dn.children ++ [s.length] })
            ++ [{ fresh_node d node_element with children := [s.length + 1] },
                { fresh_node s.length node_pcdata with value := toStr v }],
          ⟨d, some s.length⟩) := by
  have hok : allow_insert_child dn.type node_element = true := by rw [ht]; rfl
  have h1 := append_child_ok node_element hd hok
  have hstep : ofXml.set toStr s ⟨d, none⟩ v
      = ofXml.set toStr (s.set d { dn with children := dn.children ++ [s.length] }
          ++ [fresh_node d node_element]) ⟨d, some s.length⟩ v := by
    simp only [ofXml.set, Option.isNone_none, if_true, h1, Option.isNone_some,
      Bool.false_eq_true, if_false]
  have hel : (s.set d { dn with children := dn.children ++ [s.length] }
      ++ [fresh_node d node_element])[s.length]? = some (fresh_node d node_element) :=
    getElem?_set_append_length _ _ _ _
  rw [hstep, set_without_child toStr d v hel rfl rfl, set_length_set_append]
  simp

theorem type_eq_some {s : Store} {a : Nat} {t : xml_node_type} (h : pugi.type s (some a) = t)
    (ht : t ≠ node_null) : ∃ nd, s[a]? = some nd ∧ nd.type = t := by
  cases hnd : s[a]? with
  | none => simp [pugi.type, hnd] at h; exact absurd h.symm ht
  | some nd => exact ⟨nd, rfl, by simpa [pugi.type, hnd] using h⟩

theorem text_as_string_first_child {F : Store} {a c : Nat} {nd cn : xml_node_struct}
    {rest : List Nat} (hnd : F[a]? = some nd) (hno : pugi.is_text_node nd.type = false)
    (hch : nd.children = c :: rest) (hcn : F[c]? = some cn)
    (htext : pugi.is_text_node cn.type = true) :
    pugi.text_as_string F (some a) = cn.value := by
  have hfind : nd.children.find? (fun x => pugi.is_text_node (pugi.type F (some x))) = some c := by
    rw [hch, List.find?_cons]
    simp [pugi.type, hcn, htext]
  simp only [pugi.text_as_string, hnd, hno, hfind, hcn]
  simp

theorem getValue_after_set {T : Type} (toStr : T → String) (s : Store) (h : ofXml) (v : T)
    (hok : ofXml.textSettable s h = true) :
    ofXml.getValue (ofXml.set toStr s h v).1 (ofXml.set toStr s h v).2 = toStr v := by
  obtain ⟨d, x⟩ := h
  cases x with
  | none =>
    have hdoc : pugi.type s (some d) = node_document := by
      simpa [ofXml.textSettable] using hok
    obtain ⟨dn, hd, ht⟩ := type_eq_some hdoc (by decide)
    rw [set_on_empty_handle toStr v hd ht]
    have hlen : (s.set d { dn with children := dn.children ++ [s.length] }).length = s.length := by
      simp
    have h1 : ((s.set d { dn with children := dn.children ++ [s.length] })
            ++ [{ fresh_node d node_element with children := [s.length + 1] },
                { fresh_node s.length node_pcdata with value := toStr v }])[s.length]?
        = some { fresh_node d node_element with children := [s.length + 1] } := by
      rw [List.getElem?_append_right (by simp)]; simp
    have h2 : ((s.set d { dn with children := dn.children ++ [s.length] })
            ++ [{ fresh_node d node_element with children := [s.length + 1] },
                { fresh_node s.length node_pcdata with value := toStr v }])[s.length + 1]?
        = some { fresh_node s.length node_pcdata with value := toStr v } := by
      rw [List.getElem?_append_right (by simp)]; simp
    exact text_as_string_first_child h1 rfl rfl h2 rfl
  | some a =>
    simp only [ofXml.textSettable, Bool.and_eq_true, decide_eq_true_eq] at hok
    obtain ⟨hkind, hchild⟩ := hok
    have hnd : ∃ nd, s[a]? = some nd ∧ (nd.type = node_document ∨ nd.type = node_element) := by
      rcases hkind with h | h
      · obtain ⟨nd, h1, h2⟩ := type_eq_some h (by decide)
        exact ⟨nd, h1, Or.inl h2⟩
      · obtain ⟨nd, h1, h2⟩ := type_eq_some h (by decide)
        exact ⟨nd, h1, Or.inr h2⟩
    obtain ⟨nd, hnd, hty⟩ := hnd
    have ha : a < s.length := getElem?_some_lt hnd
    have hnotext : pugi.is_text_node nd.type = false := by
      rcases hty with h | h <;> simp [pugi.is_text_node, h]
    cases hch : nd.children with
    | nil =>
      have hallow : allow_insert_child nd.type node_pcdata = true := by
        rcases hty with h | h <;> rw [h] <;> rfl
      rw [set_without_child toStr d v hnd hch hallow]
      have h1 : (s.set a { nd with children := [s.length] }
          ++ [{ fresh_node a node_pcdata with value := toStr v }])[a]?
          = some { nd with children := [s.length] } := by
        rw [getElem?_set_append_lt _ _ _ _ ha]; simp [ha]
      have h2 : (s.set a { nd with children := [s.length] }
          ++ [{ fresh_node a node_pcdata with value := toStr v }])[s.length]?
          = some { fresh_node a node_pcdata with value := toStr v } :=
        getElem?_set_append_length _ _ _ _
      exact text_as_string_first_child h1 hnotext rfl h2 rfl
    | cons c rest =>
      have hfc : pugi.first_child s (some a) = some c := by
        simp [pugi.first_child, hnd, hch]
      rw [hfc] at hchild
      have hctext : pugi.is_text_node (pugi.type s (some c)) = true := hchild
      cases hcn : s[c]? with
      | none => simp [pugi.type, hcn, pugi.is_text_node] at hctext
      | some cn =>
        have hcty : cn.type = node_pcdata ∨ cn.type = node_cdata := by
          simpa [pugi.type, hcn, pugi.is_text_node] using hctext
        have hc : c < s.length := getElem?_some_lt hcn
        have hac : c ≠ a := by
          intro hEq
          subst hEq
          rw [hnd] at hcn
          cases hcn
          rcases hty with h | h <;> rcases hcty with h' | h' <;> rw [h] at h' <;> cases h'
        rw [set_on_text_child toStr d v hnd hch hcn hcty]
        have h1 : (s.set c { cn with value := toStr v })[a]? = some nd := by
          rw [List.getElem?_set_ne hac]; exact hnd
        have h2 : (s.set c { cn with value := toStr v })[c]?
            = some { cn with value := toStr v } := by
          simp [hc]
        have h3 : pugi.is_text_node ({ cn with value := toStr v } : xml_node_struct).type
            = true := by
          rcases hcty with h | h <;> simp [pugi.is_text_node, h]
        exact text_as_string_first_child h1 hnotext hch h2 h3

theorem map_type_set {s : Store} {a : Nat} {nd : xml_node_struct} (nd' : xml_node_struct)
    (hnd : s[a]? = some nd) (hty : nd'.type = nd.type) :
    (s.set a nd').map (fun n => n.type) = s.map (fun n => n.type) := by
  apply List.ext_getElem?
  intro i
  by_cases hi : a = i
  · subst hi
    rw [List.getElem?_map, List.getElem?_map, List.getElem?_set_self (getElem?_some_lt hnd), hnd]
    simp [hty]
  · rw [List.getElem?_map, List.getElem?_map, List.getElem?_set_ne hi]

theorem set_keeps_position_and_elements {T : Type} (toStr : T → String) (s : Store)
    (d a : Nat) (v : T) :
    (ofXml.set toStr s ⟨d, some a⟩ v).2 = ⟨d, some a⟩ ∧
    ((ofXml.set toStr s ⟨d, some a⟩ v).1.map (fun n => n.type) = s.map (fun n => n.type) ∨
      (ofXml.set toStr s ⟨d, some a⟩ v).1.map (fun n => n.type)
        = s.map (fun n => n.type) ++ [node_pcdata]) := by
  refine ⟨rfl, ?_⟩
  cases hfc : pugi.first_child s (some a) with
  | none =>
    cases hnd : s[a]? with
    | none =>
      rw [set_refused toStr d v hfc (by simp [pugi.append_child, hnd])]
      exact Or.inl rfl
    | some nd =>
      have hnil : nd.children = [] := by
        simpa [pugi.first_child, hnd] using hfc
      cases hallow : allow_insert_child nd.type node_pcdata with
      | false =>
        rw [set_refused toStr d v hfc (append_child_refused node_pcdata hnd hallow)]
        exact Or.inl rfl
      | true =>
        rw [set_without_child toStr d v hnd hnil hallow]
        right
        rw [List.map_append,
          map_type_set { nd with children := [s.length] } hnd rfl]
        rfl
  | some c =>
    cases htext : pugi.is_text_node (pugi.type s (some c)) with
    | false =>
      rw [set_on_other_child toStr d v hfc htext]
      exact Or.inl rfl
    | true =>
      cases hnd : s[a]? with
      | none => simp [pugi.first_child, hnd] at hfc
      | some nd =>
        cases hcn : s[c]? with
        | none => simp [pugi.type, hcn, pugi.is_text_node] at htext
        | some cn =>
          have hcty : cn.type = node_pcdata ∨ cn.type = node_cdata := by
            simpa [pugi.type, hcn, pugi.is_text_node] using htext
          have hch : nd.children = c :: nd.children.tail := by
            have h1 : nd.children.head? = some c := by
              simpa [pugi.first_child, hnd] using hfc
            cases hl : nd.children with
            | nil => simp [hl] at h1
            | cons x xs =>
              simp [hl] at h1
              simp [h1]
          rw [set_on_text_child toStr d v hnd hch hcn hcty]
          left
          exact map_type_set { cn with value := toStr v } hcn rfl

/-- C4 (amended): when the handle can take text (it is empty and owned by a document
node, or it is on a document or element node that has no child or whose first child
is a text node), `getValue()` after `set(v)` is the stringified `v`; when the first
child of the node exists and is not a text node, `set` changes neither the store nor
the handle. -/
theorem set_then_getValue {T : Type} (toStr : T → String) (s : Store) (h : ofXml) (v : T) :
    (ofXml.textSettable s h = true →
      ofXml.getValue (ofXml.set toStr s h v).1 (ofXml.set toStr s h v).2 = toStr v) ∧
    (∀ c, pugi.first_child s h.xml = some c →
      pugi.is_text_node (pugi.type s (some c)) = false →
      ofXml.set toStr s h v = (s, h)) := by
  refine ⟨getValue_after_set toStr s h v, ?_⟩
  intro c hfc htext
  obtain ⟨d, x⟩ := h
  cases x with
  | none => simp [pugi.first_child] at hfc
  | some a => exact set_on_other_child toStr d v hfc htext

/-- Witness for C4 (amended): `set(42)` through an empty handle on the empty
document, and through a handle on `<a><b/></a>`. -/
theorem set_then_getValue_witness :
    ofXml.getValue (ofXml.set (fun n : Nat => toString n) sampleEmpty ⟨0, none⟩ 42).1
        (ofXml.set (fun n : Nat => toString n) sampleEmpty ⟨0, none⟩ 42).2 = "42" ∧
    ofXml.set (fun n : Nat => toString n) sampleNested ⟨0, some 1⟩ 42
      = (sampleNested, ⟨0, some 1⟩) :=
  ⟨(set_then_getValue (fun n : Nat => toString n) sampleEmpty ⟨0, none⟩ 42).1 (by decide),
    (set_then_getValue (fun n : Nat => toString n) sampleNested ⟨0, some 1⟩ 42).2 2
      (by decide) (by decide)⟩

/-- C4 as stated fails: on `<a><b/></a>`, after `set(42)` through the handle on `a`,
`getValue()` on that handle is not `"42"`. -/
theorem set_on_element_child_getValue_differs :
    ofXml.getValue (ofXml.set (fun n : Nat => toString n) sampleNested ⟨0, some 1⟩ 42).1
        (ofXml.set (fun n : Nat => toString n) sampleNested ⟨0, some 1⟩ 42).2
      ≠ (fun n : Nat => toString n) 42 := by
  decide

/-- C5: through an empty handle owned by a document node, `set(v)` re-seats the
handle on a new node, so that it converts to true; the document node gets that node
as one more, last, child; the new node is an element whose only child is a new text
node with the stringified value; nothing else in the store changes.  Through a
non-empty handle, `set` keeps the position and creates no element: the node kinds in
the store are as before, possibly followed by one text node. -/
theorem set_materializes_element {T : Type} (toStr : T → String) (s : Store) (d : Nat)
    (dn : xml_node_struct) (v : T) (hd : s[d]? = some dn) (ht : dn.type = node_document) :
    (ofXml.set toStr s ⟨d, none⟩ v).2 = ⟨d, some s.length⟩ ∧
    (ofXml.set toStr s ⟨d, none⟩ v).2.toBool = true ∧
    (ofXml.set toStr s ⟨d, none⟩ v).1[d]?
      = some { dn with children := dn.children ++ [s.length] } ∧
    (dn.children ++ [s.length]).length = dn.children.length + 1 ∧
    (ofXml.set toStr s ⟨d, none⟩ v).1[s.length]?
      = some { type := node_element, name := "", value := "", parent := some d,
               attributes := [], children := [s.length + 1] } ∧
    (ofXml.set toStr s ⟨d, none⟩ v).1[s.length + 1]?
      = some { type := node_pcdata, name := "", value := toStr v, parent := some s.length,
               attributes := [], children := [] } ∧
    (ofXml.set toStr s ⟨d, none⟩ v).1.length = s.length + 2 ∧
    (∀ b, b ≠ d → b < s.length → (ofXml.set toStr s ⟨d, none⟩ v).1[b]? = s[b]?) ∧
    (∀ a,
      (ofXml.set toStr s ⟨d, some a⟩ v).2 = ⟨d, some a⟩ ∧
      ((ofXml.set toStr s ⟨d, some a⟩ v).1.map (fun n => n.type) = s.map (fun n => n.type) ∨
        (ofXml.set toStr s ⟨d, some a⟩ v).1.map (fun n => n.type)
          = s.map (fun n => n.type) ++ [node_pcdata])) := by
  have hlt : d < s.length := getElem?_some_lt hd
  rw [set_on_empty_handle toStr v hd ht]
  refine ⟨rfl, rfl, ?_, by simp, ?_, ?_, by simp, ?_, ?_⟩
  · rw [List.getElem?_append_left (by simpa using hlt)]
    simp [hlt]
  · rw [List.getElem?_append_right (by simp)]
    simp [fresh_node]
  · rw [List.getElem?_append_right (by simp)]
    simp [fresh_node]
  · intro b hb hbl
    rw [List.getElem?_append_left (by simpa using hbl)]
    simp [List.getElem?_set_ne (Ne.symm hb)]
  · intro a
    exact set_keeps_position_and_elements toStr s d a v

/-- Witness for C5: `set(42)` through an empty handle on the empty document. -/
theorem set_materializes_element_witness :
    (ofXml.set (fun n : Nat => toString n) sampleEmpty ⟨0, none⟩ 42).2 = ⟨0, some 1⟩ ∧
    (ofXml.set (fun n : Nat => toString n) sampleEmpty ⟨0, none⟩ 42).1[2]?
      = some { type := node_pcdata, name := "", value := "42", parent := some 1,
               attributes := [], children := [] } :=
  ⟨(set_materializes_element (fun n : Nat => toString n) sampleEmpty 0
      ⟨node_document, "", "", none, [], []⟩ 42 (by decide) (by decide)).1,
    (set_materializes_element (fun n : Nat => toString n) sampleEmpty 0
      ⟨node_document, "", "", none, [], []⟩ 42 (by decide) (by decide)).2.2.2.2.2.1⟩

theorem set_unsigned_char_eq_set (toStr : Int → String) (s : Store) (h : ofXml) (c : Nat) :
    ofXml.set_unsigned_char toStr s h c = ofXml.set toStr s h (Int.ofNat c) := rfl

set_option maxRecDepth 100000 in
theorem decimal_numeral_ne_character :
    ∀ c, c < 256 → ofXml.ofToString_int (Int.ofNat c) ≠ String.singleton (Char.ofNat c) := by
  decide

/-- C6: for an `unsigned char` value `c`, the narrow overload of `set` has the same
effect on store and handle as the generic `set` applied to the integer `c`; the text
it writes is the decimal numeral of `c`, which is never the one-character string with
character code `c`; and where the handle can take text, `getValue()` afterwards is
that numeral. -/
theorem set_unsigned_char_writes_numeral (s : Store) (h : ofXml) (c : Nat) (hc : c < 256) :
    ofXml.set_unsigned_char ofXml.ofToString_int s h c
      = ofXml.set ofXml.ofToString_int s h (Int.ofNat c) ∧
    ofXml.ofToString_int (Int.ofNat c) = Nat.repr c ∧
    ofXml.ofToString_int (Int.ofNat c) ≠ String.singleton (Char.ofNat c) ∧
    (ofXml.textSettable s h = true →
      ofXml.getValue (ofXml.set_unsigned_char ofXml.ofToString_int s h c).1
        (ofXml.set_unsigned_char ofXml.ofToString_int s h c).2 = Nat.repr c) := by
  refine ⟨rfl, rfl, decimal_numeral_ne_character c hc, ?_⟩
  intro hok
  rw [set_unsigned_char_eq_set]
  exact getValue_after_set ofXml.ofToString_int s h (Int.ofNat c) hok

/-- Witness for C6: the value 65 is written as `"65"`, not as `"A"`. -/
theorem set_unsigned_char_writes_numeral_witness :
    ofXml.getValue (ofXml.set_unsigned_char ofXml.ofToString_int sampleEmpty ⟨0, none⟩ 65).1
        (ofXml.set_unsigned_char ofXml.ofToString_int sampleEmpty ⟨0, none⟩ 65).2 = "65" ∧
    String.singleton (Char.ofNat 65) = "A" :=
  ⟨(set_unsigned_char_writes_numeral sampleEmpty ⟨0, none⟩ 65 (by decide)).2.2.2 (by decide),
    by decide⟩
